import Mathlib

/-!
Shallow embedding of the SKIRT `StoredTable<N>` lookup/interpolation engine
(`StoredTable.hpp`): N-dimensional multilinear (optionally logarithmic)
interpolation over strictly increasing axis grids, and construction of
normalized cumulative distribution functions along the first axis.

Doubles are modelled as real numbers; the memory-mapped value block is
modelled as a flat list of reals indexed through the same flattened-index
computation the source performs.
-/

open List

/-- Base-10 logarithm, modelling C's `log10`. -/
noncomputable def log10 (x : ℝ) : ℝ := Real.log x / Real.log 10

/-- Power of ten, modelling C's `pow(10, y)`. -/
noncomputable def exp10 (y : ℝ) : ℝ := (10 : ℝ) ^ y

/-- Model of `std::lower_bound` on a (sorted) range of doubles: the index of
the first element that is not less than `x`. -/
noncomputable def lowerBound (x : ℝ) : List ℝ → ℕ
  | [] => 0
  | y :: ys => if y < x then lowerBound x ys + 1 else 0

/-- Model of an opened `StoredTable<N>` with `N = n+1` axes: the per-axis grid
point sequences (`_axBeg`/`_axLen`), the per-axis log flags (`_axLog`), the
quantity value block reachable from `_qtyBeg` as a flat list, the interleaving
step `_qtyStep`, and the quantity log flag `_qtyLog`. -/
structure StoredTable (N : ℕ) where
  axBeg : Fin N → List ℝ
  axLog : Fin N → Bool
  qtyData : List ℝ
  qtyStep : ℕ
  qtyLog : Bool

/-- The per-axis precomputation step of `StoredTable<N>::operator()`: locate
the upper bin border index via `lower_bound`, clamp out-of-range coordinates
to the outer grid points, optionally move to log space, and compute the
fractional position of the coordinate inside the bin. Returns the pair
`(i2[k], f[k])` of the source. -/
noncomputable def axisPrep (grid : List ℝ) (isLog : Bool) (x : ℝ) : ℕ × ℝ :=
  let right0 := lowerBound x grid
  let right := if right0 = 0 then 1
               else if right0 = grid.length then grid.length - 1
               else right0
  let xc := if right0 = 0 then grid.getD 0 0
            else if right0 = grid.length then grid.getD (grid.length - 1) 0
            else x
  let x1 := grid.getD (right - 1) 0
  let x2 := grid.getD right 0
  if isLog then (right, (log10 xc - log10 x1) / (log10 x2 - log10 x1))
  else (right, (xc - x1) / (x2 - x1))

/-- The front factor of interpolation term `t` in `StoredTable<N>::operator()`:
bit `k` of `t` decides whether axis `k` contributes `1 - f[k]` (lower border)
or `f[k]` (upper border). -/
noncomputable def frontFactor {N : ℕ} (f : Fin N → ℝ) (t : ℕ) : ℝ :=
  ∏ k : Fin N, if (t >>> (k : ℕ)) &&& 1 = 1 then 1 - f k else f k

/-- Clamp a natural number into `Fin (n+1)`; helper to view the `ℕ`-indexed
loops of the source as functions on axis indices. -/
def finOrZero (n : ℕ) (k : ℕ) : Fin (n + 1) :=
  if h : k < n + 1 then ⟨k, h⟩ else ⟨0, Nat.succ_pos n⟩

/-- The descending accumulation loop of `StoredTable<N>::flattenedIndex`:
starting from `indices[N-1]`, repeatedly multiply by the axis length and add
the next lower axis index. `flatDown L idx n j` is the accumulator after `j`
loop iterations. -/
def flatDown (L idx : ℕ → ℕ) (n : ℕ) : ℕ → ℕ
  | 0 => idx n
  | j + 1 => flatDown L idx n j * L (n - j - 1) + idx (n - j - 1)

/-- Model of `StoredTable<N>::flattenedIndex`: the row-major flattened index
(first axis fastest) scaled by the quantity interleaving step. -/
def StoredTable.flattenedIndex {n : ℕ} (T : StoredTable (n + 1))
    (indices : Fin (n + 1) → ℕ) : ℕ :=
  flatDown (fun k => (T.axBeg (finOrZero n k)).length)
    (fun k => indices (finOrZero n k)) n n * T.qtyStep

/-- Model of `StoredTable<N>::valueAtIndices`: read the value block at the
flattened index. -/
noncomputable def StoredTable.valueAtIndices {n : ℕ} (T : StoredTable (n + 1))
    (indices : Fin (n + 1) → ℕ) : ℝ :=
  T.qtyData.getD (T.flattenedIndex indices) 0

/-- The value `yy[t]` of interpolation term `t` in
`StoredTable<N>::operator()`: the tabulated value at the bin corner selected
by the bits of `t` (bit `k` set means the lower border on axis `k`). -/
noncomputable def cornerValue {n : ℕ} (T : StoredTable (n + 1))
    (coords : Fin (n + 1) → ℝ) (t : ℕ) : ℝ :=
  T.valueAtIndices fun k =>
    (axisPrep (T.axBeg k) (T.axLog k) (coords k)).1 - ((t >>> (k : ℕ)) &&& 1)

/-- The per-axis in-bin fractions `f[k]` computed by
`StoredTable<N>::operator()`. -/
noncomputable def fracs {n : ℕ} (T : StoredTable (n + 1))
    (coords : Fin (n + 1) → ℝ) (k : Fin (n + 1)) : ℝ :=
  (axisPrep (T.axBeg k) (T.axLog k) (coords k)).2

open Classical in
/-- Model of `StoredTable<N>::operator()`: the interpolated quantity value at
the given coordinates. If the quantity is logarithmic and all `2^N` corner
values are strictly positive, blend the base-10 logarithms of the corner
values and raise 10 to the result; otherwise take the plain weighted sum. -/
noncomputable def StoredTable.value {n : ℕ} (T : StoredTable (n + 1))
    (coords : Fin (n + 1) → ℝ) : ℝ :=
  if T.qtyLog = true ∧ ∀ t ∈ Finset.range (2 ^ (n + 1)), 0 < cornerValue T coords t then
    exp10 (∑ t ∈ Finset.range (2 ^ (n + 1)),
      frontFactor (fracs T coords) t * log10 (cornerValue T coords t))
  else
    ∑ t ∈ Finset.range (2 ^ (n + 1)), frontFactor (fracs T coords) t * cornerValue T coords t

/-- Model of `StoredTable<N>::operator[]` (one-dimensional tables only): it
simply delegates to `operator()` with the single coordinate. -/
noncomputable def StoredTable.subscript (T : StoredTable 1) (x : ℝ) : ℝ :=
  T.value fun _ => x

/-- The 1-axis demonstration table of the spec: linear axis grid `[1,2,4,8]`,
linear quantity values `[10,20,40,80]`, single quantity (step 1). -/
def demoTable : StoredTable 1 where
  axBeg := fun _ => [1, 2, 4, 8]
  axLog := fun _ => false
  qtyData := [10, 20, 40, 80]
  qtyStep := 1
  qtyLog := false

/-- Modelled from the spec: `NR::buildLinearGrid` (the `NR` helper is not part
of the provided sources) — a uniform grid of `n` bins, i.e. `n+1` border
points, linearly spaced from `xmin` to `xmax`. -/
noncomputable def buildLinearGrid (xmin xmax : ℝ) (n : ℕ) : List ℝ :=
  (List.range (n + 1)).map fun i : ℕ => xmin + (xmax - xmin) * (i : ℝ) / (n : ℝ)

/-- Modelled from the spec: `NR::buildLogGrid` (the `NR` helper is not part of
the provided sources) — a uniform grid of `n` bins, i.e. `n+1` border points,
logarithmically spaced from `xmin` to `xmax`. -/
noncomputable def buildLogGrid (xmin xmax : ℝ) (n : ℕ) : List ℝ :=
  (List.range (n + 1)).map fun i : ℕ =>
    exp10 (log10 xmin + (log10 xmax - log10 xmin) * (i : ℝ) / (n : ℝ))

/-- The axis-0 border grid constructed by `StoredTable<N>::cdf`: if the
internal grid offers at least `max 1 minBins` points between the
`lower_bound` positions of `xmin` and `xmax`, reuse those grid points between
`xmin` and `xmax`; otherwise build a fresh uniform (linear or logarithmic)
grid with `max 1 minBins` bins. -/
noncomputable def cdfGrid {n : ℕ} (T : StoredTable (n + 1)) (minBins : ℕ)
    (xmin xmax : ℝ) : List ℝ :=
  let nb := max 1 minBins
  let minRight := lowerBound xmin (T.axBeg 0)
  let maxRight := lowerBound xmax (T.axBeg 0)
  if minRight + nb ≤ maxRight then
    xmin :: (((T.axBeg 0).drop minRight).take (maxRight - minRight) ++ [xmax])
  else if T.axLog 0 then buildLogGrid xmin xmax nb
  else buildLinearGrid xmin xmax nb

/-- The accumulation loop of `StoredTable<N>::cdf`: given the border grid,
produce the raw (unnormalized) cumulative values, starting from `acc` and
adding `g(left border) * bin width` for each bin (left-rectangle rule). The
result has the same length as the border grid. -/
noncomputable def rawCumulFrom (g : ℝ → ℝ) (acc : ℝ) : List ℝ → List ℝ
  | [] => []
  | [_] => [acc]
  | x1 :: x2 :: rest => acc :: rawCumulFrom g (acc + g x1 * (x2 - x1)) (x2 :: rest)

/-- The result of `StoredTable<N>::cdf`: the axis-0 border grid `xv`, the
normalized cumulative values `Yv`, and the returned normalization factor. -/
structure CdfResult where
  xv : List ℝ
  Yv : List ℝ
  norm : ℝ

/-- Model of `StoredTable<N>::cdf`: build the border grid, accumulate the raw
cumulative values by the left-rectangle rule, and divide everything by the
final raw value, which is returned as the normalization factor. -/
noncomputable def StoredTable.cdf {n : ℕ} (T : StoredTable (n + 1)) (minBins : ℕ)
    (xmin xmax : ℝ) (fixed : Fin n → ℝ) : CdfResult :=
  let xv := cdfGrid T minBins xmin xmax
  let raw := rawCumulFrom (fun x => T.value (Fin.cons x fixed)) 0 xv
  let norm := raw.getLast?.getD 0
  { xv := xv, Yv := raw.map (· / norm), norm := norm }

open Classical in
/-- Modelled from the spec: the number of internal grid points lying strictly
inside the open interval `(xmin, xmax)` — the quantity the spec's bin-count
selection rule is phrased in terms of. -/
noncomputable def strictInsideCount (grid : List ℝ) (xmin xmax : ℝ) : ℕ :=
  (grid.filter fun p => decide (xmin < p ∧ p < xmax)).length

/-- The 1-axis all-zero table: linear axis grid `[1,2]` with both quantity
values zero. -/
def zeroTable : StoredTable 1 where
  axBeg := fun _ => [1, 2]
  axLog := fun _ => false
  qtyData := [0, 0]
  qtyStep := 1
  qtyLog := false

/-- A 1-axis table with a logarithmic quantity: linear axis grid `[1,2]`,
positive quantity values `[10,1000]`. -/
def logDemo : StoredTable 1 where
  axBeg := fun _ => [1, 2]
  axLog := fun _ => false
  qtyData := [10, 1000]
  qtyStep := 1
  qtyLog := true

/-- A 1-axis table whose two quantity values both equal 5. -/
def constTable : StoredTable 1 where
  axBeg := fun _ => [1, 2]
  axLog := fun _ => false
  qtyData := [5, 5]
  qtyStep := 1
  qtyLog := false

/-- The invariants the open-time validation of a stored table establishes for
its axes: every axis has at least two grid points, the grid points are
strictly increasing, and the grid points of a logarithmic axis are strictly
positive. -/
def ValidAxes {n : ℕ} (T : StoredTable (n + 1)) : Prop :=
  ∀ k, 2 ≤ (T.axBeg k).length ∧ (T.axBeg k).Pairwise (· < ·) ∧
    (T.axLog k = true → ∀ p ∈ T.axBeg k, 0 < p)

/-- On `Fin 1`, consing a head onto the empty tuple is the constant tuple. -/
theorem finCons_elim0 (x : ℝ) : (Fin.cons x Fin.elim0 : Fin 1 → ℝ) = fun _ => x := by
  funext k
  have hk : k = 0 := Fin.eq_of_val_eq (by omega)
  rw [hk]
  rfl

theorem demo_val1 : demoTable.value (fun _ => 1) = 10 := by
  norm_num [StoredTable.value, demoTable, fracs, cornerValue, axisPrep, lowerBound,
    StoredTable.valueAtIndices, StoredTable.flattenedIndex, flatDown, finOrZero,
    frontFactor, Finset.sum_range_succ, Fin.prod_univ_one]

theorem demo_val2 : demoTable.value (fun _ => 2) = 20 := by
  norm_num [StoredTable.value, demoTable, fracs, cornerValue, axisPrep, lowerBound,
    StoredTable.valueAtIndices, StoredTable.flattenedIndex, flatDown, finOrZero,
    frontFactor, Finset.sum_range_succ, Fin.prod_univ_one]

theorem demo_val4 : demoTable.value (fun _ => 4) = 40 := by
  norm_num [StoredTable.value, demoTable, fracs, cornerValue, axisPrep, lowerBound,
    StoredTable.valueAtIndices, StoredTable.flattenedIndex, flatDown, finOrZero,
    frontFactor, Finset.sum_range_succ, Fin.prod_univ_one]

theorem demoGrid_eval : cdfGrid demoTable 1 1 8 = [1, 1, 2, 4, 8] := by
  norm_num [cdfGrid, lowerBound, demoTable]

theorem demo_raw_eval :
    rawCumulFrom (fun x => demoTable.value (Fin.cons x Fin.elim0)) 0 [1, 1, 2, 4, 8]
      = [0, 0, 10, 50, 210] := by
  norm_num [rawCumulFrom, finCons_elim0, demo_val1, demo_val2, demo_val4]

theorem demo_cdf_norm : (demoTable.cdf 1 1 8 Fin.elim0).norm = 210 := by
  norm_num [StoredTable.cdf, demoGrid_eval, demo_raw_eval]

theorem zero_val1 : zeroTable.value (fun _ => 1) = 0 := by
  norm_num [StoredTable.value, zeroTable, fracs, cornerValue, axisPrep, lowerBound,
    StoredTable.valueAtIndices, StoredTable.flattenedIndex, flatDown, finOrZero,
    frontFactor, Finset.sum_range_succ, Fin.prod_univ_one]

theorem zeroGrid_eval : cdfGrid zeroTable 1 1 2 = [1, 1, 2] := by
  norm_num [cdfGrid, lowerBound, zeroTable]

/-- C1: on the 1-axis table with linear grid `[1,2,4,8]` and linear quantity
values `[10,20,40,80]`, the point lookup returns `value(3) = 30` (midpoint of
bin `[2,4]`), `value(0.5) = 10` (clamped to the left border) and
`value(100) = 80` (clamped to the right border). -/
theorem c1_demo_lookups :
    demoTable.value (fun _ => 3) = 30 ∧ demoTable.value (fun _ => 0.5) = 10 ∧
      demoTable.value (fun _ => 100) = 80 := by
  refine ⟨?_, ?_, ?_⟩ <;>
    norm_num [StoredTable.value, demoTable, fracs, cornerValue, axisPrep, lowerBound,
      StoredTable.valueAtIndices, StoredTable.flattenedIndex, flatDown, finOrZero,
      frontFactor, Finset.sum_range_succ, Fin.prod_univ_one]

/-- C4 counterexample: `cdf(xmin=1, xmax=8, minBins=1)` on the demo table does
not use `[1,2,4,8]` as its border points: because `xmin = 1` coincides with a
grid point, the code emits it twice and the border grid is `[1,1,2,4,8]`. -/
theorem c4_counterexample :
    (demoTable.cdf 1 1 8 Fin.elim0).xv = [1, 1, 2, 4, 8] ∧
      (demoTable.cdf 1 1 8 Fin.elim0).xv ≠ [1, 2, 4, 8] := by
  constructor
  · simpa [StoredTable.cdf] using demoGrid_eval
  · rw [show (demoTable.cdf 1 1 8 Fin.elim0).xv = cdfGrid demoTable 1 1 8 from rfl,
      demoGrid_eval]
    norm_num

/-- C4 amended: `cdf(xmin=1, xmax=8, minBins=1)` on the demo table produces
the border points `[1,1,2,4,8]` (the reused internal grid with `xmin`/`xmax`
prepended/appended, duplicating the grid point 1), left-rectangle raw
cumulative values `[0,0,10,50,210]`, normalization factor 210, and normalized
cumulative values `[0, 0, 1/21, 5/21, 1]` (≈ `[0, 0, 0.0476, 0.238, 1]`). -/
theorem c4_amended :
    (demoTable.cdf 1 1 8 Fin.elim0).xv = [1, 1, 2, 4, 8] ∧
      rawCumulFrom (fun x => demoTable.value (Fin.cons x Fin.elim0)) 0 [1, 1, 2, 4, 8]
        = [0, 0, 10, 50, 210] ∧
      (demoTable.cdf 1 1 8 Fin.elim0).norm = 210 ∧
      (demoTable.cdf 1 1 8 Fin.elim0).Yv = [0, 0, 1/21, 5/21, 1] := by
  have hraw : rawCumulFrom (fun x => demoTable.value (Fin.cons x Fin.elim0)) 0 [1, 1, 2, 4, 8]
      = [0, 0, 10, 50, 210] := by
    norm_num [rawCumulFrom, finCons_elim0, demo_val1, demo_val2, demo_val4]
  refine ⟨by simpa [StoredTable.cdf] using demoGrid_eval, hraw, ?_, ?_⟩ <;>
    norm_num [StoredTable.cdf, demoGrid_eval, hraw]

/-- C7: `cdf` always returns the pre-normalization final cumulative value as
the norm and divides the whole cumulative array by it unconditionally; on the
all-zero table the returned norm is 0 (so the division is a division by
zero), with no error raised (the model, like the code, is total). -/
theorem c7_norm_unconditional :
    (∀ (n : ℕ) (T : StoredTable (n + 1)) (minBins : ℕ) (xmin xmax : ℝ)
        (fixed : Fin n → ℝ),
      (T.cdf minBins xmin xmax fixed).norm =
        (rawCumulFrom (fun x => T.value (Fin.cons x fixed)) 0
          (cdfGrid T minBins xmin xmax)).getLast?.getD 0 ∧
      (T.cdf minBins xmin xmax fixed).Yv =
        (rawCumulFrom (fun x => T.value (Fin.cons x fixed)) 0
          (cdfGrid T minBins xmin xmax)).map
            (· / (T.cdf minBins xmin xmax fixed).norm)) ∧
    (zeroTable.cdf 1 1 2 Fin.elim0).norm = 0 := by
  refine ⟨fun n T minBins xmin xmax fixed => ⟨rfl, rfl⟩, ?_⟩
  have hraw : rawCumulFrom (fun x => zeroTable.value (Fin.cons x Fin.elim0)) 0 [1, 1, 2]
      = [0, 0, 0] := by
    norm_num [rawCumulFrom, finCons_elim0, zero_val1]
  norm_num [StoredTable.cdf, zeroGrid_eval, hraw]

/-- C8: for one-dimensional tables the single-coordinate lookup form
(`operator[]`) returns exactly the same value as the general lookup
(`operator()`) at every coordinate. -/
theorem c8_subscript_eq_value (T : StoredTable 1) (x : ℝ) :
    T.subscript x = T.value fun _ => x := rfl

theorem sum_range_two_mul (h : ℕ → ℝ) (m : ℕ) :
    ∑ t ∈ Finset.range (2 * m), h t
      = ∑ s ∈ Finset.range m, (h (2 * s) + h (2 * s + 1)) := by
  induction m with
  | zero => simp
  | succ m ih =>
      rw [show 2 * (m + 1) = (2 * m + 1) + 1 by ring, Finset.sum_range_succ,
        Finset.sum_range_succ, Finset.sum_range_succ, ih]
      ring

theorem frontFactor_two_mul_add {N : ℕ} (f : Fin (N + 1) → ℝ) (s b : ℕ) (hb : b < 2) :
    frontFactor f (2 * s + b)
      = (if b = 1 then 1 - f 0 else f 0) * frontFactor (fun k => f k.succ) s := by
  unfold frontFactor
  rw [Fin.prod_univ_succ]
  congr 1
  · have hmod : (2 * s + b) % 2 = b := by omega
    simp [Nat.shiftRight_zero, Nat.and_one_is_mod, hmod]
  · apply Finset.prod_congr rfl
    intro k _
    have hshift : (2 * s + b) >>> ((k.succ : ℕ)) = s >>> (k : ℕ) := by
      have h1 : ((k.succ : ℕ)) = (k : ℕ) + 1 := rfl
      rw [h1, Nat.shiftRight_eq_div_pow, Nat.shiftRight_eq_div_pow, pow_succ,
        mul_comm (2 ^ (k : ℕ)) 2, ← Nat.div_div_eq_div_mul]
      congr 1
      omega
    rw [hshift]

theorem sum_frontFactor : ∀ (N : ℕ) (f : Fin N → ℝ),
    ∑ t ∈ Finset.range (2 ^ N), frontFactor f t = 1 := by
  intro N
  induction N with
  | zero =>
      intro f
      simp [frontFactor]
  | succ N ih =>
      intro f
      rw [pow_succ, mul_comm, sum_range_two_mul]
      have hterm : ∀ s, frontFactor f (2 * s) + frontFactor f (2 * s + 1)
          = frontFactor (fun k => f k.succ) s := by
        intro s
        have h0 : frontFactor f (2 * s) = f 0 * frontFactor (fun k => f k.succ) s := by
          simpa using frontFactor_two_mul_add f s 0 (by omega)
        have h1 : frontFactor f (2 * s + 1)
            = (1 - f 0) * frontFactor (fun k => f k.succ) s := by
          simpa using frontFactor_two_mul_add f s 1 (by omega)
        rw [h0, h1]
        ring
      rw [Finset.sum_congr rfl fun s _ => hterm s, ih]

/-- C10: the `2^N` multilinear front factors always sum to exactly 1, and
consequently a linear interpolation over corner values that all equal a
constant `c` returns `c`. -/
theorem c10_partition_of_unity :
    (∀ (N : ℕ) (f : Fin N → ℝ), ∑ t ∈ Finset.range (2 ^ N), frontFactor f t = 1) ∧
    (∀ (n : ℕ) (T : StoredTable (n + 1)) (coords : Fin (n + 1) → ℝ) (c : ℝ),
      T.qtyLog = false →
      (∀ t ∈ Finset.range (2 ^ (n + 1)), cornerValue T coords t = c) →
      T.value coords = c) := by
  refine ⟨sum_frontFactor, fun n T coords c hlog hc => ?_⟩
  unfold StoredTable.value
  rw [if_neg (by simp [hlog])]
  rw [Finset.sum_congr rfl fun t ht => by rw [hc t ht]]
  rw [← Finset.sum_mul, sum_frontFactor, one_mul]

theorem c10_witness :
    (∑ t ∈ Finset.range (2 ^ 1), frontFactor (fun _ : Fin 1 => (0.3 : ℝ)) t = 1) ∧
      constTable.value (fun _ => 1.5) = 5 := by
  constructor
  · exact c10_partition_of_unity.1 1 fun _ => 0.3
  · refine c10_partition_of_unity.2 0 constTable (fun _ => 1.5) 5 rfl ?_
    intro t ht
    simp only [Finset.mem_range] at ht
    interval_cases t <;>
      norm_num [cornerValue, axisPrep, lowerBound, constTable,
        StoredTable.valueAtIndices, StoredTable.flattenedIndex, flatDown, finOrZero]

/-- C6: if the quantity is marked logarithmic and every one of the `2^N`
corner values is strictly positive, the lookup returns the log-space blend
`10^(Σ w_t · log10(corner_t))`; if the quantity is marked logarithmic but some
corner value is non-positive, the lookup silently returns the plain linear
weighted sum instead of failing. -/
theorem c6_log_interpolation (n : ℕ) (T : StoredTable (n + 1))
    (coords : Fin (n + 1) → ℝ) (hq : T.qtyLog = true) :
    ((∀ t ∈ Finset.range (2 ^ (n + 1)), 0 < cornerValue T coords t) →
      T.value coords = exp10 (∑ t ∈ Finset.range (2 ^ (n + 1)),
        frontFactor (fracs T coords) t * log10 (cornerValue T coords t))) ∧
    ((∃ t ∈ Finset.range (2 ^ (n + 1)), cornerValue T coords t ≤ 0) →
      T.value coords = ∑ t ∈ Finset.range (2 ^ (n + 1)),
        frontFactor (fracs T coords) t * cornerValue T coords t) := by
  constructor
  · intro hpos
    unfold StoredTable.value
    rw [if_pos ⟨hq, hpos⟩]
  · rintro ⟨t, ht, hle⟩
    unfold StoredTable.value
    rw [if_neg]
    rintro ⟨-, hall⟩
    exact absurd (hall t ht) (not_lt.mpr hle)

theorem lowerBound_le_length (x : ℝ) (l : List ℝ) : lowerBound x l ≤ l.length := by
  induction l with
  | nil => simp [lowerBound]
  | cons y ys ih =>
      by_cases h : y < x
      · simp only [lowerBound, if_pos h, List.length_cons]
        omega
      · simp [lowerBound, if_neg h]

theorem lowerBound_eq_zero (x : ℝ) (l : List ℝ) (h : x ≤ l.getD 0 0) :
    lowerBound x l = 0 := by
  cases l with
  | nil => rfl
  | cons y ys =>
      simp only [List.getD_cons_zero] at h
      simp [lowerBound, not_lt.mpr h]

theorem lowerBound_eq_length (x : ℝ) (l : List ℝ) (h : ∀ z ∈ l, z < x) :
    lowerBound x l = l.length := by
  induction l with
  | nil => rfl
  | cons y ys ih =>
      have hy : y < x := h y (by simp)
      simp [lowerBound, hy, ih fun z hz => h z (by simp [hz])]

theorem le_getD_last (l : List ℝ) (hp : l.Pairwise (· < ·)) :
    ∀ z ∈ l, z ≤ l.getD (l.length - 1) 0 := by
  induction l with
  | nil => simp
  | cons y ys ih =>
      rcases List.pairwise_cons.mp hp with ⟨hy, hp'⟩
      intro z hz
      cases ys with
      | nil =>
          simp only [List.mem_singleton] at hz
          simp [hz]
      | cons w ws =>
          have hlast : (y :: w :: ws).getD ((y :: w :: ws).length - 1) 0
              = (w :: ws).getD ((w :: ws).length - 1) 0 := by
            simp [List.getD_cons_succ]
          have hmem : (w :: ws).getD ((w :: ws).length - 1) 0 ∈ w :: ws := by
            have hl : (w :: ws).length - 1 < (w :: ws).length := by simp
            rw [List.getD_eq_getElem (w :: ws) 0 hl]
            exact List.getElem_mem hl
          rcases List.mem_cons.mp hz with rfl | hz
          · rw [hlast]
            exact le_of_lt (hy _ hmem)
          · rw [hlast]
            exact ih hp' z hz

theorem lowerBound_getD_last (l : List ℝ) (hp : l.Pairwise (· < ·)) (hne : l ≠ []) :
    lowerBound (l.getD (l.length - 1) 0) l = l.length - 1 := by
  induction l with
  | nil => exact absurd rfl hne
  | cons y ys ih =>
      rcases List.pairwise_cons.mp hp with ⟨hy, hp'⟩
      cases ys with
      | nil => simp [lowerBound]
      | cons w ws =>
          have hlast : (y :: w :: ws).getD ((y :: w :: ws).length - 1) 0
              = (w :: ws).getD ((w :: ws).length - 1) 0 := by
            simp [List.getD_cons_succ]
          have hmem : (w :: ws).getD ((w :: ws).length - 1) 0 ∈ w :: ws := by
            have hl : (w :: ws).length - 1 < (w :: ws).length := by simp
            rw [List.getD_eq_getElem (w :: ws) 0 hl]
            exact List.getElem_mem hl
          have hlt : y < (w :: ws).getD ((w :: ws).length - 1) 0 := hy _ hmem
          have hrec := ih hp' (by simp)
          rw [hlast]
          conv_lhs => rw [lowerBound]
          rw [if_pos hlt, hrec]
          simp only [List.length_cons]
          omega

theorem axisPrep_clamp_low (l : List ℝ) (isLog : Bool) (x : ℝ)
    (h : x ≤ l.getD 0 0) :
    axisPrep l isLog x = axisPrep l isLog (l.getD 0 0) := by
  have h1 : lowerBound x l = 0 := lowerBound_eq_zero x l h
  have h2 : lowerBound (l.getD 0 0) l = 0 := lowerBound_eq_zero _ l le_rfl
  unfold axisPrep
  rw [h1, h2]
  simp

theorem axisPrep_clamp_high (l : List ℝ) (isLog : Bool) (x : ℝ)
    (hp : l.Pairwise (· < ·)) (hlen : 2 ≤ l.length)
    (hx : l.getD (l.length - 1) 0 < x) :
    axisPrep l isLog x = axisPrep l isLog (l.getD (l.length - 1) 0) := by
  have ha : lowerBound x l = l.length :=
    lowerBound_eq_length x l fun z hz => lt_of_le_of_lt (le_getD_last l hp z hz) hx
  have hb : lowerBound (l.getD (l.length - 1) 0) l = l.length - 1 :=
    lowerBound_getD_last l hp (by intro hnil; rw [hnil] at hlen; simp at hlen)
  have h0 : l.length ≠ 0 := by omega
  have h1 : l.length - 1 ≠ 0 := by omega
  have h2 : l.length - 1 ≠ l.length := by omega
  unfold axisPrep
  rw [ha, hb]
  simp [h0, h1, h2]

theorem value_congr {n : ℕ} (T : StoredTable (n + 1)) (c1 c2 : Fin (n + 1) → ℝ)
    (h : ∀ k, axisPrep (T.axBeg k) (T.axLog k) (c1 k)
      = axisPrep (T.axBeg k) (T.axLog k) (c2 k)) :
    T.value c1 = T.value c2 := by
  have hf : fracs T c1 = fracs T c2 :=
    funext fun k => congrArg Prod.snd (h k)
  have hc : cornerValue T c1 = cornerValue T c2 := by
    funext t
    unfold cornerValue
    congr 1
    funext k
    rw [h k]
  unfold StoredTable.value
  rw [hf, hc]

/-- C2: for every table whose axes are strictly increasing with at least two
grid points, and every axis `k`, a lookup with the `k`-th coordinate below the
axis minimum equals the lookup with that coordinate set to the axis minimum,
and a lookup above the axis maximum equals the lookup at the axis maximum —
independently per axis; the lookup is a total function, so no out-of-range
coordinate is rejected. -/
theorem c2_clamping {n : ℕ} (T : StoredTable (n + 1)) (k : Fin (n + 1))
    (coords : Fin (n + 1) → ℝ) (x : ℝ)
    (hlen : ∀ j, 2 ≤ (T.axBeg j).length)
    (hsort : ∀ j, (T.axBeg j).Pairwise (· < ·)) :
    (x < (T.axBeg k).getD 0 0 →
      T.value (Function.update coords k x)
        = T.value (Function.update coords k ((T.axBeg k).getD 0 0))) ∧
    ((T.axBeg k).getD ((T.axBeg k).length - 1) 0 < x →
      T.value (Function.update coords k x)
        = T.value (Function.update coords k
            ((T.axBeg k).getD ((T.axBeg k).length - 1) 0))) := by
  constructor
  · intro hx
    apply value_congr
    intro j
    by_cases hj : j = k
    · subst hj
      rw [Function.update_same, Function.update_same]
      exact axisPrep_clamp_low _ _ _ (le_of_lt hx)
    · rw [Function.update_noteq hj, Function.update_noteq hj]
  · intro hx
    apply value_congr
    intro j
    by_cases hj : j = k
    · subst hj
      rw [Function.update_same, Function.update_same]
      exact axisPrep_clamp_high _ _ _ (hsort j) (hlen j) hx
    · rw [Function.update_noteq hj, Function.update_noteq hj]

theorem c2_witness :
    (demoTable.value (Function.update (fun _ => (3 : ℝ)) 0 0.5)
        = demoTable.value (Function.update (fun _ => (3 : ℝ)) 0
            ((demoTable.axBeg 0).getD 0 0))) ∧
    (demoTable.value (Function.update (fun _ => (3 : ℝ)) 0 100)
        = demoTable.value (Function.update (fun _ => (3 : ℝ)) 0
            ((demoTable.axBeg 0).getD ((demoTable.axBeg 0).length - 1) 0))) := by
  have hlen : ∀ j, 2 ≤ (demoTable.axBeg j).length := by
    intro j
    norm_num [demoTable]
  have hsort : ∀ j, (demoTable.axBeg j).Pairwise (· < ·) := by
    intro j
    norm_num [demoTable, List.pairwise_cons]
  exact ⟨(c2_clamping demoTable 0 (fun _ => 3) 0.5 hlen hsort).1 (by norm_num [demoTable]),
    (c2_clamping demoTable 0 (fun _ => 3) 100 hlen hsort).2 (by norm_num [demoTable])⟩

theorem axisPrep_fst (l : List ℝ) (isLog : Bool) (x : ℝ) :
    (axisPrep l isLog x).1
      = if lowerBound x l = 0 then 1
        else if lowerBound x l = l.length then l.length - 1
        else lowerBound x l := by
  unfold axisPrep
  by_cases hlog : isLog <;> simp [hlog]

theorem axisPrep_fst_bounds (l : List ℝ) (isLog : Bool) (x : ℝ)
    (hlen : 2 ≤ l.length) :
    1 ≤ (axisPrep l isLog x).1 ∧ (axisPrep l isLog x).1 ≤ l.length - 1 := by
  have hle := lowerBound_le_length x l
  rw [axisPrep_fst]
  by_cases h0 : lowerBound x l = 0
  · rw [if_pos h0]
    omega
  · by_cases hl : lowerBound x l = l.length
    · rw [if_neg h0, if_pos hl]
      omega
    · rw [if_neg h0, if_neg hl]
      omega

theorem flatDown_lt (L idx : ℕ → ℕ) (n : ℕ) (hidx : ∀ m, m ≤ n → idx m < L m) :
    ∀ j, j ≤ n → flatDown L idx n j < ∏ m ∈ Finset.Ico (n - j) (n + 1), L m := by
  intro j
  induction j with
  | zero =>
      intro _
      have hsing : Finset.Ico (n - 0) (n + 1) = {n} := by
        rw [Nat.sub_zero]
        exact Nat.Ico_succ_singleton n
      rw [hsing, Finset.prod_singleton]
      exact hidx n le_rfl
  | succ j ih =>
      intro hj
      have hj' : j ≤ n := by omega
      have h1 := ih hj'
      have h2 : idx (n - j - 1) < L (n - j - 1) := hidx _ (by omega)
      have hsplit : ∏ m ∈ Finset.Ico (n - (j + 1)) (n + 1), L m
          = L (n - j - 1) * ∏ m ∈ Finset.Ico (n - j) (n + 1), L m := by
        rw [Finset.prod_eq_prod_Ico_succ_bot (by omega : n - (j + 1) < n + 1)]
        have e1 : n - (j + 1) = n - j - 1 := by omega
        have e2 : n - (j + 1) + 1 = n - j := by omega
        rw [e2, e1]
      rw [show flatDown L idx n (j + 1)
          = flatDown L idx n j * L (n - j - 1) + idx (n - j - 1) from rfl, hsplit]
      calc flatDown L idx n j * L (n - j - 1) + idx (n - j - 1)
          < (flatDown L idx n j + 1) * L (n - j - 1) := by
            have := h2
            nlinarith [Nat.zero_le (flatDown L idx n j * L (n - j - 1))]
        _ ≤ (∏ m ∈ Finset.Ico (n - j) (n + 1), L m) * L (n - j - 1) :=
            Nat.mul_le_mul_right _ h1
        _ = L (n - j - 1) * ∏ m ∈ Finset.Ico (n - j) (n + 1), L m := Nat.mul_comm _ _

theorem finOrZero_coe {n : ℕ} (k : Fin (n + 1)) : finOrZero n (k : ℕ) = k := by
  unfold finOrZero
  rw [dif_pos k.isLt]

theorem flattenedIndex_lt {n : ℕ} (T : StoredTable (n + 1)) (indices : Fin (n + 1) → ℕ)
    (hidx : ∀ k, indices k < (T.axBeg k).length) (hstep : 1 ≤ T.qtyStep) :
    T.flattenedIndex indices < T.qtyStep * ∏ k, (T.axBeg k).length := by
  unfold StoredTable.flattenedIndex
  have hb := flatDown_lt (fun m => (T.axBeg (finOrZero n m)).length)
    (fun m => indices (finOrZero n m)) n (fun m _ => hidx (finOrZero n m)) n le_rfl
  have hico : Finset.Ico (n - n) (n + 1) = Finset.range (n + 1) := by
    rw [Nat.sub_self]
    exact congrFun Finset.range_eq_Ico.symm (n + 1)
  rw [hico] at hb
  have hprod : ∏ m ∈ Finset.range (n + 1), (T.axBeg (finOrZero n m)).length
      = ∏ k, (T.axBeg k).length := by
    rw [← Fin.prod_univ_eq_prod_range fun m => (T.axBeg (finOrZero n m)).length]
    exact Finset.prod_congr rfl fun k _ => by rw [finOrZero_coe]
  rw [hprod] at hb
  calc flatDown (fun m => (T.axBeg (finOrZero n m)).length)
        (fun m => indices (finOrZero n m)) n n * T.qtyStep
      < (∏ k, (T.axBeg k).length) * T.qtyStep :=
        (Nat.mul_lt_mul_right (by omega)).mpr hb
    _ = T.qtyStep * ∏ k, (T.axBeg k).length := Nat.mul_comm _ _

/-- C9: on a table whose axes each have at least two grid points, the upper
bin border index `i2[k]` computed by the lookup always lies in
`[1, axLen[k]-1]`, so every one of the corner accesses (at per-axis index
`i2[k]` or `i2[k]-1`) has a flattened index strictly inside the quantity's
value block of `qtyStep · ∏ axLen[k]` slots; the lookup is a total
function. -/
theorem c9_index_safety {n : ℕ} (T : StoredTable (n + 1)) (coords : Fin (n + 1) → ℝ)
    (hlen : ∀ k, 2 ≤ (T.axBeg k).length) (hstep : 1 ≤ T.qtyStep) :
    (∀ k, 1 ≤ (axisPrep (T.axBeg k) (T.axLog k) (coords k)).1 ∧
      (axisPrep (T.axBeg k) (T.axLog k) (coords k)).1 ≤ (T.axBeg k).length - 1) ∧
    (∀ t : ℕ, T.flattenedIndex (fun k =>
        (axisPrep (T.axBeg k) (T.axLog k) (coords k)).1 - ((t >>> (k : ℕ)) &&& 1))
      < T.qtyStep * ∏ k, (T.axBeg k).length) := by
  have hb : ∀ k, 1 ≤ (axisPrep (T.axBeg k) (T.axLog k) (coords k)).1 ∧
      (axisPrep (T.axBeg k) (T.axLog k) (coords k)).1 ≤ (T.axBeg k).length - 1 :=
    fun k => axisPrep_fst_bounds _ _ _ (hlen k)
  refine ⟨hb, fun t => flattenedIndex_lt T _ ?_ hstep⟩
  intro k
  have h1 := hb k
  have h2 := hlen k
  omega

theorem c9_witness :
    (1 ≤ (axisPrep (demoTable.axBeg 0) (demoTable.axLog 0) ((fun _ => (3 : ℝ)) 0)).1 ∧
      (axisPrep (demoTable.axBeg 0) (demoTable.axLog 0) ((fun _ => (3 : ℝ)) 0)).1
        ≤ (demoTable.axBeg 0).length - 1) ∧
    demoTable.flattenedIndex (fun k =>
        (axisPrep (demoTable.axBeg k) (demoTable.axLog k) ((fun _ => (3 : ℝ)) k)).1
          - ((0 >>> (k : ℕ)) &&& 1))
      < demoTable.qtyStep * ∏ k, (demoTable.axBeg k).length := by
  have hlen : ∀ k, 2 ≤ (demoTable.axBeg k).length := by
    intro k
    norm_num [demoTable]
  have hstep : 1 ≤ demoTable.qtyStep := by norm_num [demoTable]
  exact ⟨(c9_index_safety demoTable (fun _ => 3) hlen hstep).1 0,
    (c9_index_safety demoTable (fun _ => 3) hlen hstep).2 0⟩

open Classical in
theorem sorted_window (xmin xmax : ℝ) (hxx : xmin ≤ xmax) :
    ∀ l : List ℝ, l.Pairwise (· < ·) →
      lowerBound xmin l ≤ lowerBound xmax l ∧
      (l.filter fun p => decide (xmin ≤ p ∧ p < xmax)).length
        = lowerBound xmax l - lowerBound xmin l ∧
      (l.drop (lowerBound xmin l)).take (lowerBound xmax l - lowerBound xmin l)
        = l.filter fun p => decide (xmin ≤ p ∧ p < xmax) := by
  intro l
  induction l with
  | nil => simp [lowerBound]
  | cons y ys ih =>
      intro hp
      rcases List.pairwise_cons.mp hp with ⟨hy, hp'⟩
      rcases ih hp' with ⟨iha, ihb, ihc⟩
      by_cases h1 : y < xmin
      · have h2 : y < xmax := lt_of_lt_of_le h1 hxx
        have hpy : ¬(xmin ≤ y ∧ y < xmax) := fun ⟨ha, _⟩ => absurd h1 (not_lt.mpr ha)
        simp only [lowerBound, if_pos h1, if_pos h2, List.filter_cons,
          decide_eq_true_eq, hpy, if_false]
        refine ⟨by omega, by rw [ihb]; omega, ?_⟩
        rw [List.drop_succ_cons,
          show lowerBound xmax ys + 1 - (lowerBound xmin ys + 1)
            = lowerBound xmax ys - lowerBound xmin ys by omega]
        exact ihc
      · have hys0 : lowerBound xmin ys = 0 := by
          cases ys with
          | nil => rfl
          | cons w ws =>
              have hyw : y < w := hy w (by simp)
              have hwmin : ¬ w < xmin := fun hw => h1 (lt_trans hyw hw)
              simp [lowerBound, hwmin]
        by_cases h2 : y < xmax
        · have hpy : xmin ≤ y ∧ y < xmax := ⟨not_lt.mp h1, h2⟩
          have hfc : List.filter (fun p => decide (xmin ≤ p ∧ p < xmax)) (y :: ys)
              = y :: List.filter (fun p => decide (xmin ≤ p ∧ p < xmax)) ys := by
            rw [List.filter_cons]
            simp [hpy]
          have hlb : lowerBound xmin (y :: ys) = 0 := by simp [lowerBound, h1]
          have hlbx : lowerBound xmax (y :: ys) = lowerBound xmax ys + 1 := by
            simp [lowerBound, h2]
          have htake : List.take (lowerBound xmax ys) ys
              = List.filter (fun p => decide (xmin ≤ p ∧ p < xmax)) ys := by
            have h := ihc
            rw [hys0] at h
            simpa using h
          have hlenf : (List.filter (fun p => decide (xmin ≤ p ∧ p < xmax)) ys).length
              = lowerBound xmax ys := by
            rw [ihb, hys0]
            omega
          rw [hlb, hlbx, hfc]
          refine ⟨Nat.zero_le _, ?_, ?_⟩
          · simp only [List.length_cons, Nat.sub_zero, hlenf]
          · simp only [Nat.sub_zero, List.drop_zero, List.take_succ_cons, htake]
        · have hymax : xmax ≤ y := not_lt.mp h2
          have hfilt : (y :: ys).filter (fun p => decide (xmin ≤ p ∧ p < xmax)) = [] := by
            rw [List.filter_eq_nil_iff]
            intro z hz
            simp only [decide_eq_true_eq, not_and, not_lt]
            intro _
            rcases List.mem_cons.mp hz with rfl | hz'
            · exact hymax
            · exact le_of_lt (lt_of_le_of_lt hymax (hy z hz'))
          simp only [lowerBound, if_neg h1, if_neg h2, hfilt]
          simp

/-- C3 counterexample: on the demo table with `minBins = 3`, `xmin = 1`,
`xmax = 8`, only 2 grid points (2 and 4) lie strictly inside `(1, 8)` —
fewer than `minBins` — yet the code reuses the internal grid (the border
grid is `[1,1,2,4,8]`) instead of synthesizing the uniform linear 3-bin grid
the claim requires. -/
theorem c3_counterexample :
    strictInsideCount (demoTable.axBeg 0) 1 8 = 2 ∧
      strictInsideCount (demoTable.axBeg 0) 1 8 < max 1 3 ∧
      demoTable.axLog 0 = false ∧
      cdfGrid demoTable 3 1 8 = [1, 1, 2, 4, 8] ∧
      cdfGrid demoTable 3 1 8 ≠ buildLinearGrid 1 8 (max 1 3) := by
  have hcnt : strictInsideCount (demoTable.axBeg 0) 1 8 = 2 := by
    norm_num [strictInsideCount, demoTable, List.filter_cons, decide_eq_true_eq]
  have hgrid : cdfGrid demoTable 3 1 8 = [1, 1, 2, 4, 8] := by
    norm_num [cdfGrid, lowerBound, demoTable]
  have hlin : (buildLinearGrid 1 8 (max 1 3)).length = 4 := by
    rw [buildLinearGrid, List.length_map, List.length_range]
    norm_num
  refine ⟨hcnt, by omega, rfl, hgrid, fun h => ?_⟩
  rw [hgrid] at h
  have := congrArg List.length h
  rw [hlin] at this
  simp at this

open Classical in
/-- C3 amended: the internal axis-0 grid points are reused (with `xmin`/`xmax`
as first/last border) if and only if the grid contains at least
`max(1, minBins)` grid points in the half-open interval `[xmin, xmax)` — not
"strictly inside `(xmin, xmax)`" as claimed, the difference showing exactly
when `xmin` coincides with a grid point, which is then also reused (and
duplicated after the leading `xmin`); otherwise a uniform grid of exactly
`max(1, minBins)` bins is synthesized, logarithmic or linear matching axis 0's
interpolation mode. -/
theorem c3_amended {n : ℕ} (T : StoredTable (n + 1)) (minBins : ℕ) (xmin xmax : ℝ)
    (hp : (T.axBeg 0).Pairwise (· < ·)) (hxx : xmin ≤ xmax) :
    (max 1 minBins ≤ ((T.axBeg 0).filter fun p => decide (xmin ≤ p ∧ p < xmax)).length →
      cdfGrid T minBins xmin xmax
        = xmin :: (((T.axBeg 0).filter fun p => decide (xmin ≤ p ∧ p < xmax)) ++ [xmax])) ∧
    (((T.axBeg 0).filter fun p => decide (xmin ≤ p ∧ p < xmax)).length < max 1 minBins →
      cdfGrid T minBins xmin xmax
        = if T.axLog 0 = true then buildLogGrid xmin xmax (max 1 minBins)
          else buildLinearGrid xmin xmax (max 1 minBins)) := by
  obtain ⟨ha, hb, hc⟩ := sorted_window xmin xmax hxx (T.axBeg 0) hp
  constructor
  · intro hcnt
    rw [hb] at hcnt
    simp only [cdfGrid]
    rw [if_pos (by omega), hc]
  · intro hcnt
    rw [hb] at hcnt
    simp only [cdfGrid]
    rw [if_neg (by omega)]

open Classical in
theorem c3_witness :
    cdfGrid demoTable 3 1 8
      = 1 :: (((demoTable.axBeg 0).filter fun p => decide ((1 : ℝ) ≤ p ∧ p < 8)) ++ [8]) := by
  have hp : (demoTable.axBeg 0).Pairwise (· < ·) := by
    norm_num [demoTable, List.pairwise_cons]
  refine (c3_amended demoTable 3 1 8 hp (by norm_num)).1 ?_
  norm_num [demoTable, List.filter_cons, decide_eq_true_eq]

theorem getD_lt_of_lt_lowerBound (x : ℝ) :
    ∀ (l : List ℝ) (i : ℕ), i < lowerBound x l → l.getD i 0 < x := by
  intro l
  induction l with
  | nil => intro i h; simp [lowerBound] at h
  | cons y ys ih =>
      intro i h
      by_cases hy : y < x
      · simp only [lowerBound, if_pos hy] at h
        cases i with
        | zero => simpa using hy
        | succ j =>
            simp only [List.getD_cons_succ]
            exact ih j (by omega)
      · simp [lowerBound, hy] at h

theorem le_getD_lowerBound (x : ℝ) :
    ∀ l : List ℝ, lowerBound x l < l.length → x ≤ l.getD (lowerBound x l) 0 := by
  intro l
  induction l with
  | nil => intro h; simp [lowerBound] at h
  | cons y ys ih =>
      intro h
      by_cases hy : y < x
      · simp only [lowerBound, if_pos hy] at h ⊢
        simp only [List.getD_cons_succ]
        exact ih (by simp only [List.length_cons] at h; omega)
      · simp only [lowerBound, if_neg hy, List.getD_cons_zero]
        exact not_lt.mp hy

theorem pairwise_getD_lt (l : List ℝ) (hp : l.Pairwise (· < ·)) (i j : ℕ)
    (hij : i < j) (hj : j < l.length) : l.getD i 0 < l.getD j 0 := by
  have hi : i < l.length := lt_trans hij hj
  rw [List.getD_eq_getElem l 0 hi, List.getD_eq_getElem l 0 hj]
  exact List.pairwise_iff_getElem.mp hp i j hi hj hij

theorem getD_mem_of_lt (l : List ℝ) (i : ℕ) (h : i < l.length) : l.getD i 0 ∈ l := by
  rw [List.getD_eq_getElem l 0 h]
  exact List.getElem_mem h

theorem getD_nonneg (l : List ℝ) (h : ∀ v ∈ l, 0 ≤ v) (i : ℕ) : 0 ≤ l.getD i 0 := by
  by_cases hi : i < l.length
  · exact h _ (getD_mem_of_lt l i hi)
  · rw [List.getD_eq_default _ _ (by omega)]

theorem frac_bound_aux {x1 x x2 : ℝ} (h1 : x1 < x) (h2 : x ≤ x2) :
    0 ≤ (x - x1) / (x2 - x1) ∧ (x - x1) / (x2 - x1) ≤ 1 := by
  have hd : 0 < x2 - x1 := by linarith
  constructor
  · apply div_nonneg <;> linarith
  · rw [div_le_one hd]
    linarith

theorem log10_lt_log10 {u v : ℝ} (hu : 0 < u) (huv : u < v) : log10 u < log10 v := by
  unfold log10
  have h10 : 0 < Real.log 10 := Real.log_pos (by norm_num)
  exact div_lt_div_of_pos_right (Real.log_lt_log hu huv) h10

theorem log10_le_log10 {u v : ℝ} (hu : 0 < u) (huv : u ≤ v) : log10 u ≤ log10 v := by
  rcases eq_or_lt_of_le huv with rfl | hlt
  · exact le_rfl
  · exact le_of_lt (log10_lt_log10 hu hlt)

theorem axisPrep_snd_low (l : List ℝ) (isLog : Bool) (x : ℝ)
    (h0 : lowerBound x l = 0) : (axisPrep l isLog x).2 = 0 := by
  unfold axisPrep
  rw [h0]
  by_cases hlog : isLog <;> simp [hlog]

theorem axisPrep_snd_high (l : List ℝ) (isLog : Bool) (x : ℝ)
    (hl : lowerBound x l = l.length) (hlen : 2 ≤ l.length)
    (hp : l.Pairwise (· < ·)) (hpos : isLog = true → ∀ p ∈ l, 0 < p) :
    (axisPrep l isLog x).2 = 1 := by
  have hll : l.length ≠ 0 := by omega
  have hx12 : l.getD (l.length - 1 - 1) 0 < l.getD (l.length - 1) 0 :=
    pairwise_getD_lt l hp _ _ (by omega) (by omega)
  unfold axisPrep
  rw [hl]
  simp only [if_neg hll, eq_self_iff_true, if_true]
  by_cases hlog : isLog
  · have h1pos : 0 < l.getD (l.length - 1 - 1) 0 :=
      hpos hlog _ (getD_mem_of_lt l _ (by omega))
    have hlog12 : log10 (l.getD (l.length - 1 - 1) 0) < log10 (l.getD (l.length - 1) 0) :=
      log10_lt_log10 h1pos hx12
    simp only [hlog, if_true]
    exact div_self (by linarith)
  · simp only [Bool.not_eq_true] at hlog
    simp only [hlog, Bool.false_eq_true, if_false]
    exact div_self (by linarith)

theorem axisPrep_snd_mid (l : List ℝ) (isLog : Bool) (x : ℝ)
    (h0 : lowerBound x l ≠ 0) (hl : lowerBound x l ≠ l.length) :
    (axisPrep l isLog x).2 =
      if isLog then
        (log10 x - log10 (l.getD (lowerBound x l - 1) 0))
          / (log10 (l.getD (lowerBound x l) 0) - log10 (l.getD (lowerBound x l - 1) 0))
      else (x - l.getD (lowerBound x l - 1) 0)
          / (l.getD (lowerBound x l) 0 - l.getD (lowerBound x l - 1) 0) := by
  unfold axisPrep
  simp only [if_neg h0, if_neg hl]
  by_cases hlog : isLog <;> simp [hlog]

theorem axisPrep_snd_bounds (l : List ℝ) (isLog : Bool) (x : ℝ)
    (hlen : 2 ≤ l.length) (hp : l.Pairwise (· < ·))
    (hpos : isLog = true → ∀ p ∈ l, 0 < p) :
    0 ≤ (axisPrep l isLog x).2 ∧ (axisPrep l isLog x).2 ≤ 1 := by
  by_cases h0 : lowerBound x l = 0
  · rw [axisPrep_snd_low l isLog x h0]
    norm_num
  · by_cases hl : lowerBound x l = l.length
    · rw [axisPrep_snd_high l isLog x hl hlen hp hpos]
      norm_num
    · rw [axisPrep_snd_mid l isLog x h0 hl]
      have hr0len : lowerBound x l < l.length :=
        lt_of_le_of_ne (lowerBound_le_length x l) hl
      have hx1 : l.getD (lowerBound x l - 1) 0 < x :=
        getD_lt_of_lt_lowerBound x l _ (by omega)
      have hx2 : x ≤ l.getD (lowerBound x l) 0 := le_getD_lowerBound x l hr0len
      by_cases hlog : isLog
      · simp only [hlog, if_true]
        have hx1pos : 0 < l.getD (lowerBound x l - 1) 0 :=
          hpos hlog _ (getD_mem_of_lt l _ (by omega))
        have hxpos : 0 < x := lt_trans hx1pos hx1
        exact frac_bound_aux (log10_lt_log10 hx1pos hx1) (log10_le_log10 hxpos hx2)
      · simp only [Bool.not_eq_true] at hlog
        simp only [hlog, Bool.false_eq_true, if_false]
        exact frac_bound_aux hx1 hx2

theorem value_nonneg {n : ℕ} (T : StoredTable (n + 1)) (hax : ValidAxes T)
    (hdata : ∀ v ∈ T.qtyData, 0 ≤ v) (coords : Fin (n + 1) → ℝ) :
    0 ≤ T.value coords := by
  unfold StoredTable.value
  split
  · unfold exp10
    positivity
  · apply Finset.sum_nonneg
    intro t _
    apply mul_nonneg
    · unfold frontFactor
      apply Finset.prod_nonneg
      intro k _
      rcases hax k with ⟨hlen, hp, hpos⟩
      have hb := axisPrep_snd_bounds (T.axBeg k) (T.axLog k) (coords k) hlen hp hpos
      unfold fracs
      by_cases hbit : (t >>> (k : ℕ)) &&& 1 = 1
      · simp only [hbit, if_pos]
        linarith [hb.2]
      · simp only [hbit, if_false]
        exact hb.1
    · unfold cornerValue StoredTable.valueAtIndices
      exact getD_nonneg _ hdata _

theorem chain'_le_of_pairwise {l : List ℝ} (h : l.Pairwise (· ≤ ·)) :
    l.Chain' (· ≤ ·) := List.Pairwise.chain' h

theorem buildLinearGrid_chain' (xmin xmax : ℝ) (nb : ℕ) (hxx : xmin ≤ xmax)
    (hnb : 1 ≤ nb) : (buildLinearGrid xmin xmax nb).Chain' (· ≤ ·) := by
  unfold buildLinearGrid
  rw [List.chain'_map]
  rw [List.chain'_range_succ]
  intro m _
  have hnb' : (0 : ℝ) < nb := by
    have h1 : (1 : ℕ) ≤ nb := hnb
    exact_mod_cast Nat.lt_of_lt_of_le Nat.zero_lt_one h1
  have hd : (0 : ℝ) ≤ xmax - xmin := by linarith
  gcongr
  linarith

theorem buildLogGrid_chain' (xmin xmax : ℝ) (nb : ℕ) (hxmin : 0 < xmin)
    (hxx : xmin ≤ xmax) (hnb : 1 ≤ nb) :
    (buildLogGrid xmin xmax nb).Chain' (· ≤ ·) := by
  unfold buildLogGrid
  rw [List.chain'_map]
  rw [List.chain'_range_succ]
  intro m _
  unfold exp10
  apply Real.rpow_le_rpow_of_exponent_le (by norm_num)
  have hnb' : (0 : ℝ) < nb := by
    have : (1 : ℕ) ≤ nb := hnb
    exact_mod_cast Nat.lt_of_lt_of_le Nat.zero_lt_one this
  have hd : (0 : ℝ) ≤ log10 xmax - log10 xmin :=
    sub_nonneg.mpr (log10_le_log10 hxmin hxx)
  have hm : (m : ℝ) ≤ (m : ℝ) + 1 := by linarith
  gcongr
  linarith

open Classical in
theorem cdfGrid_chain' {n : ℕ} (T : StoredTable (n + 1)) (minBins : ℕ) (xmin xmax : ℝ)
    (hp : (T.axBeg 0).Pairwise (· < ·)) (hxx : xmin ≤ xmax)
    (hlogpos : T.axLog 0 = true → 0 < xmin) :
    (cdfGrid T minBins xmin xmax).Chain' (· ≤ ·) := by
  obtain ⟨ha, hb, hc⟩ := sorted_window xmin xmax hxx (T.axBeg 0) hp
  simp only [cdfGrid]
  split_ifs with h1 h2
  · rw [hc]
    apply chain'_le_of_pairwise
    rw [List.pairwise_cons]
    constructor
    · intro z hz
      rcases List.mem_append.mp hz with hz1 | hz2
      · have hzp := List.of_mem_filter hz1
        simp only [decide_eq_true_eq] at hzp
        exact hzp.1
      · simp only [List.mem_singleton] at hz2
        subst hz2
        exact hxx
    · rw [List.pairwise_append]
      refine ⟨(hp.filter _).imp le_of_lt, by simp, ?_⟩
      intro z hz w hw
      simp only [List.mem_singleton] at hw
      subst hw
      have hzp := List.of_mem_filter hz
      simp only [decide_eq_true_eq] at hzp
      exact le_of_lt hzp.2
  · exact buildLogGrid_chain' xmin xmax _ (hlogpos h2) hxx (le_max_left 1 minBins)
  · exact buildLinearGrid_chain' xmin xmax _ hxx (le_max_left 1 minBins)

theorem cdfGrid_ne_nil {n : ℕ} (T : StoredTable (n + 1)) (minBins : ℕ)
    (xmin xmax : ℝ) : cdfGrid T minBins xmin xmax ≠ [] := by
  simp only [cdfGrid]
  split_ifs with h1 h2
  · simp
  · unfold buildLogGrid
    simp
  · unfold buildLinearGrid
    simp

theorem rawCumulFrom_ne_nil (g : ℝ → ℝ) (acc : ℝ) (xv : List ℝ) (h : xv ≠ []) :
    rawCumulFrom g acc xv ≠ [] := by
  cases xv with
  | nil => exact absurd rfl h
  | cons x rest => cases rest <;> simp [rawCumulFrom]

theorem rawCumulFrom_head (g : ℝ → ℝ) (acc : ℝ) (xv : List ℝ) (h : xv ≠ []) :
    (rawCumulFrom g acc xv).head? = some acc := by
  cases xv with
  | nil => exact absurd rfl h
  | cons x rest => cases rest <;> rfl

theorem rawCumulFrom_chain' (g : ℝ → ℝ) (hg : ∀ x, 0 ≤ g x) :
    ∀ xv : List ℝ, xv.Chain' (· ≤ ·) → ∀ acc,
      (rawCumulFrom g acc xv).Chain' (· ≤ ·) := by
  intro xv
  induction xv with
  | nil =>
      intro _ acc
      simp [rawCumulFrom]
  | cons x1 rest ih =>
      intro hch acc
      cases rest with
      | nil => simp [rawCumulFrom]
      | cons x2 rest2 =>
          rw [show rawCumulFrom g acc (x1 :: x2 :: rest2)
              = acc :: rawCumulFrom g (acc + g x1 * (x2 - x1)) (x2 :: rest2) from rfl]
          rw [List.chain'_cons']
          have hch2 := List.chain'_cons.mp hch
          constructor
          · intro y hy
            rw [rawCumulFrom_head _ _ _ (by simp)] at hy
            simp only [Option.mem_def, Option.some.injEq] at hy
            subst hy
            have hmul : 0 ≤ g x1 * (x2 - x1) :=
              mul_nonneg (hg x1) (by linarith [hch2.1])
            linarith
          · exact ih hch2.2 _

theorem head_map_div (l : List ℝ) (c : ℝ) :
    (l.map (· / c)).head? = l.head?.map (· / c) := by
  cases l <;> rfl

theorem getLast_map_div (l : List ℝ) (c : ℝ) :
    (l.map (· / c)).getLast? = l.getLast?.map (· / c) := by
  induction l with
  | nil => rfl
  | cons x xs ih =>
      cases xs with
      | nil => rfl
      | cons y ys =>
          simp only [List.map_cons, List.getLast?_cons_cons] at ih ⊢
          exact ih

theorem getLast_eq_some_getD (l : List ℝ) (h : l ≠ []) :
    l.getLast? = some (l.getLast?.getD 0) := by
  cases hl : l.getLast? with
  | none => exact absurd (List.getLast?_eq_none_iff.mp hl) h
  | some r => rfl

/-- C5 counterexample: on the all-zero table (non-negative quantity values)
the returned normalized cumulative values end in 0, not 1 — the zero total
integral makes the final normalization a division by zero. -/
theorem c5_counterexample :
    (∀ v ∈ zeroTable.qtyData, 0 ≤ v) ∧
      (zeroTable.cdf 1 1 2 Fin.elim0).Yv.getLast? = some 0 ∧
      some (0 : ℝ) ≠ some (1 : ℝ) := by
  have hraw : rawCumulFrom (fun x => zeroTable.value (Fin.cons x Fin.elim0)) 0 [1, 1, 2]
      = [0, 0, 0] := by
    norm_num [rawCumulFrom, finCons_elim0, zero_val1]
  refine ⟨?_, ?_, by norm_num⟩
  · intro v hv
    simp [zeroTable] at hv
    subst hv
    norm_num
  · norm_num [StoredTable.cdf, zeroGrid_eval, hraw]

/-- C5 amended: for a cdf() call on a validly opened table (strictly
increasing axes of length at least 2, positive grid points on log axes) with
`xmin ≤ xmax` (positive `xmin` when axis 0 is logarithmic), all quantity
values non-negative, and a strictly positive pre-normalization total
integral, the returned cumulative array — accumulated from 0 by the
left-rectangle rule and normalized by its final value — is non-decreasing,
starts at 0 and ends at 1. (When the total is zero the normalization divides
by zero and the final entry is not 1.) -/
theorem c5_amended {n : ℕ} (T : StoredTable (n + 1)) (minBins : ℕ) (xmin xmax : ℝ)
    (fixed : Fin n → ℝ) (hax : ValidAxes T) (hdata : ∀ v ∈ T.qtyData, 0 ≤ v)
    (hxx : xmin ≤ xmax) (hlogpos : T.axLog 0 = true → 0 < xmin)
    (hnorm : 0 < (T.cdf minBins xmin xmax fixed).norm) :
    (T.cdf minBins xmin xmax fixed).Yv.Chain' (· ≤ ·) ∧
      (T.cdf minBins xmin xmax fixed).Yv.head? = some 0 ∧
      (T.cdf minBins xmin xmax fixed).Yv.getLast? = some 1 := by
  have hg : ∀ x : ℝ, 0 ≤ T.value (Fin.cons x fixed) :=
    fun x => value_nonneg T hax hdata _
  have hxvne : cdfGrid T minBins xmin xmax ≠ [] := cdfGrid_ne_nil T minBins xmin xmax
  have hch : (cdfGrid T minBins xmin xmax).Chain' (· ≤ ·) :=
    cdfGrid_chain' T minBins xmin xmax (hax 0).2.1 hxx hlogpos
  have hrawch : (rawCumulFrom (fun x => T.value (Fin.cons x fixed)) 0
      (cdfGrid T minBins xmin xmax)).Chain' (· ≤ ·) :=
    rawCumulFrom_chain' _ hg _ hch 0
  have hrawne : rawCumulFrom (fun x => T.value (Fin.cons x fixed)) 0
      (cdfGrid T minBins xmin xmax) ≠ [] := rawCumulFrom_ne_nil _ _ _ hxvne
  have hYv : (T.cdf minBins xmin xmax fixed).Yv
      = (rawCumulFrom (fun x => T.value (Fin.cons x fixed)) 0
          (cdfGrid T minBins xmin xmax)).map
            (· / (T.cdf minBins xmin xmax fixed).norm) := rfl
  have hnormdef : (T.cdf minBins xmin xmax fixed).norm
      = (rawCumulFrom (fun x => T.value (Fin.cons x fixed)) 0
          (cdfGrid T minBins xmin xmax)).getLast?.getD 0 := rfl
  refine ⟨?_, ?_, ?_⟩
  · rw [hYv, List.chain'_map]
    exact hrawch.imp fun a b hab => (div_le_div_iff_of_pos_right hnorm).mpr hab
  · rw [hYv, head_map_div,
      rawCumulFrom_head (fun x => T.value (Fin.cons x fixed)) 0 _ hxvne]
    simp [zero_div]
  · rw [hYv, getLast_map_div, getLast_eq_some_getD _ hrawne]
    simp only [Option.map_some']
    rw [← hnormdef, div_self (ne_of_gt hnorm)]

theorem c5_witness :
    (demoTable.cdf 1 1 8 Fin.elim0).Yv.Chain' (· ≤ ·) ∧
      (demoTable.cdf 1 1 8 Fin.elim0).Yv.head? = some 0 ∧
      (demoTable.cdf 1 1 8 Fin.elim0).Yv.getLast? = some 1 := by
  have hax : ValidAxes demoTable := by
    intro k
    refine ⟨by norm_num [demoTable], by norm_num [demoTable, List.pairwise_cons], ?_⟩
    intro h
    norm_num [demoTable] at h
  have hdata : ∀ v ∈ demoTable.qtyData, 0 ≤ v := by
    intro v hv
    simp [demoTable] at hv
    rcases hv with rfl | rfl | rfl | rfl <;> norm_num
  exact c5_amended demoTable 1 1 8 Fin.elim0 hax hdata (by norm_num)
    (by intro h; norm_num [demoTable] at h)
    (by rw [demo_cdf_norm]; norm_num)

theorem c6_witness :
    logDemo.value (fun _ => 1.5) = exp10 (∑ t ∈ Finset.range (2 ^ 1),
      frontFactor (fracs logDemo fun _ => 1.5) t
        * log10 (cornerValue logDemo (fun _ => 1.5) t)) := by
  refine (c6_log_interpolation 0 logDemo (fun _ => 1.5) rfl).1 ?_
  intro t ht
  simp only [Finset.mem_range] at ht
  interval_cases t <;>
    norm_num [cornerValue, axisPrep, lowerBound, logDemo,
      StoredTable.valueAtIndices, StoredTable.flattenedIndex, flatDown, finOrZero]
